import Mathlib

/-!
Verification of the border-geometry and batch-export pipeline of the
image-finalizer application (src/main.rs).

The development shallowly embeds the arithmetic of `add_border`,
`update_preview_image`, the encoder dispatch, the per-image task wrapper of
`BorderApp::process_images`, the message handling of `BorderApp::update`, and
the preview-task lifecycle.  Machine floating point (`f32`, `f64`) is modelled
exactly over `ℚ`: a value is rounded to the IEEE grid (round to nearest, ties
to even, with gradual underflow) after every primitive operation, which is the
semantics of Rust float arithmetic.  `u32` casts from floats truncate toward
zero and saturate, matching Rust `as` conversions.  Unsigned integer
subtractions that would overflow in Rust are modelled by `Option.none`
(a panic in a debug build, wrapping garbage in release; either way the value
the specification speaks about does not exist).
-/

/-- Round a rational to the nearest integer, ties to even.  This is the
rounding policy of IEEE binary floating point. -/
def rne (q : ℚ) : ℤ :=
  if q - ⌊q⌋ < 1 / 2 then ⌊q⌋
  else if 1 / 2 < q - ⌊q⌋ then ⌊q⌋ + 1
  else if 2 ∣ ⌊q⌋ then ⌊q⌋ else ⌊q⌋ + 1

/-- Round a rational to the nearest integer, ties away from zero.  This is the
semantics of Rust `f64::round`, used by the imaging library when it recomputes
the dimensions of a resize target. -/
def rha (q : ℚ) : ℤ :=
  if 0 ≤ q then ⌊q + 1 / 2⌋ else -⌊-q + 1 / 2⌋

/-- Floor of the base-two logarithm of the fraction `a / b` of two positive
naturals, computed from the natural-number logarithms of `a` and `b`. -/
def nlog2pair (a b : ℕ) : ℤ :=
  if b * 2 ^ Nat.log 2 a ≤ a * 2 ^ Nat.log 2 b
  then (Nat.log 2 a : ℤ) - (Nat.log 2 b : ℤ)
  else (Nat.log 2 a : ℤ) - (Nat.log 2 b : ℤ) - 1

/-- Floor of the base-two logarithm of a positive rational, as an integer. -/
def ilog2q (q : ℚ) : ℤ := nlog2pair q.num.toNat q.den

/-- Round a positive rational to the floating-point grid with `mb` mantissa
bits after the leading bit and minimum scale exponent `emin` (the scale of the
subnormal grid).  `mb = 23, emin = -149` is IEEE binary32; `mb = 52,
emin = -1074` is IEEE binary64. -/
def froundPos (mb : ℕ) (emin : ℤ) (q : ℚ) : ℚ :=
  let e : ℤ := max (ilog2q q - mb) emin
  ((rne (q / 2 ^ e) : ℤ) : ℚ) * 2 ^ e

/-- Round a rational to the floating-point grid `(mb, emin)`; round to nearest,
ties to even, gradual underflow.  Overflow to infinity is not modelled; all
quantities in this development stay far below the overflow thresholds. -/
def fround (mb : ℕ) (emin : ℤ) (q : ℚ) : ℚ :=
  if 0 < q then froundPos mb emin q
  else if q < 0 then -froundPos mb emin (-q)
  else 0

/-- The value of an `f32` operation: the exact rational result rounded to the
IEEE binary32 grid. -/
def f32v (q : ℚ) : ℚ := fround 23 (-149) q

/-- The value of an `f64` operation: the exact rational result rounded to the
IEEE binary64 grid. -/
def f64v (q : ℚ) : ℚ := fround 52 (-1074) q

/-- Largest value of Rust `u32`. -/
def u32max : ℕ := 4294967295

/-- Rust `as u32` applied to a float value: truncate toward zero and saturate
to the range of `u32`.  Negative values clamp to zero. -/
def u32cast (q : ℚ) : ℕ := min (Int.toNat ⌊q⌋) u32max

/-- The canvas size computed by `add_border` (src/main.rs lines 257-258 and
266-267): `(longest_side as f32 * (1.0 + percentage / 100.0)) as u32`, with
every float operation rounded to the binary32 grid.  The percentage `p` is
the exact value of the `f32` slider state. -/
def new_size_calc (longest_side : ℕ) (p : ℚ) : ℕ :=
  u32cast (f32v (f32v longest_side * f32v (1 + f32v (p / 100))))

/-- The geometry computed by `add_border` (src/main.rs lines 256-272):
`(new_width, new_height, x_offset, y_offset)`.  `none` models the `u32`
subtraction overflow that occurs when `new_size` falls below a dimension
(a panic under debug semantics; the claimed quantities do not exist). -/
def add_border_geometry (width height : ℕ) (p : ℚ) (symmetrical : Bool) :
    Option (ℕ × ℕ × ℕ × ℕ) :=
  if symmetrical then
    let longest_side := max width height
    let new_size := new_size_calc longest_side p
    if new_size < longest_side then none
    else
      let delta := new_size - longest_side
      some (width + delta, height + delta,
            (width + delta - width) / 2, (height + delta - height) / 2)
  else
    let longest_side := max width height
    let new_size := new_size_calc longest_side p
    if new_size < width ∨ new_size < height then none
    else some (new_size, new_size, (new_size - width) / 2, (new_size - height) / 2)

/-- The geometry computed by `update_preview_image` (src/main.rs lines
373-389), transcribed separately from `add_border_geometry` because the source
duplicates the code. -/
def update_preview_geometry (width height : ℕ) (p : ℚ) (symmetrical : Bool) :
    Option (ℕ × ℕ × ℕ × ℕ) :=
  if symmetrical then
    let longest_side := max width height
    let new_size := new_size_calc longest_side p
    if new_size < longest_side then none
    else
      let delta := new_size - longest_side
      some (width + delta, height + delta,
            (width + delta - width) / 2, (height + delta - height) / 2)
  else
    let longest_side := max width height
    let new_size := new_size_calc longest_side p
    if new_size < width ∨ new_size < height then none
    else some (new_size, new_size, (new_size - width) / 2, (new_size - height) / 2)

/-- An RGBA pixel value. -/
abbrev Pix := ℕ × ℕ × ℕ × ℕ

/-- The opaque white fill `Rgba([255, 255, 255, 255])` used by both pipelines. -/
def white_pix : Pix := (255, 255, 255, 255)

/-- A composited canvas before any resize: its dimensions and its pixel map. -/
structure PreCanvas where
  width : ℕ
  height : ℕ
  pixel : ℕ → ℕ → Pix

/-- The canvas built by `ImageBuffer::from_pixel(new_width, new_height, white)`
followed by `imageops::overlay(&mut canvas, &src, x_offset, y_offset)`.  The
overlay writes, for every coordinate inside the clipped source footprint, the
library's per-pixel combination (`Pixel::blend`) of the white background with
the source pixel; the blend function of the imaging library is abstracted as a
parameter.  `g` is `(new_width, new_height, x_offset, y_offset)`. -/
def composite_canvas (blend : Pix → Pix → Pix) (sw sh : ℕ) (src : ℕ → ℕ → Pix)
    (g : ℕ × ℕ × ℕ × ℕ) : PreCanvas :=
  { width := g.1
    height := g.2.1
    pixel := fun x y =>
      if g.2.2.1 ≤ x ∧ x < min (g.2.2.1 + sw) g.1 ∧
         g.2.2.2 ≤ y ∧ y < min (g.2.2.2 + sh) g.2.1
      then blend white_pix (src (x - g.2.2.1) (y - g.2.2.2))
      else white_pix }

/-- The canvas produced by `add_border` before its optional resize and encode
steps (src/main.rs lines 253-277), for a source of dimensions `sw × sh` with
pixel map `src`. -/
def add_border_canvas (blend : Pix → Pix → Pix) (sw sh : ℕ) (src : ℕ → ℕ → Pix)
    (p : ℚ) (symmetrical : Bool) : Option PreCanvas :=
  (add_border_geometry sw sh p symmetrical).map (composite_canvas blend sw sh src)

/-- The canvas produced by `update_preview_image` before its final
bounding-box downscale (src/main.rs lines 369-399). -/
def update_preview_canvas (blend : Pix → Pix → Pix) (sw sh : ℕ)
    (src : ℕ → ℕ → Pix) (p : ℚ) (symmetrical : Bool) : Option PreCanvas :=
  (update_preview_geometry sw sh p symmetrical).map (composite_canvas blend sw sh src)

/-- The resize target computed by `add_border` when `resize_images` is set
(src/main.rs lines 282-294): the longest current side is mapped to
`resize_longest_dimension` and the other side to
`(resize_longest_dimension as f32 * ratio) as u32` with
`ratio = shorter as f32 / longer as f32`. -/
def resize_box (w h t : ℕ) : ℕ × ℕ :=
  if h < w then
    let r1 := f32v (f32v h / f32v w)
    (t, u32cast (f32v (f32v t * r1)))
  else
    let r1 := f32v (f32v w / f32v h)
    (u32cast (f32v (f32v t * r1)), t)

/-- Modelled from the imaging library: `image::math::resize_dimensions`, the
routine behind `DynamicImage::resize(nwidth, nheight, filter)` (called at
src/main.rs line 296).  It rescales `(width, height)` to the largest size that
fits inside the bounding box `(nwidth, nheight)` while preserving the aspect
ratio, in `f64` arithmetic with `f64::round` and saturation at `u32::MAX`.
The repository only links this dependency, so its documented and long-stable
implementation is transcribed here. -/
def resize_dimensions (width height nwidth nheight : ℕ) : ℕ × ℕ :=
  let wq := f64v (f64v nwidth / f64v width)
  let hq := f64v (f64v nheight / f64v height)
  let r := min wq hq
  let nw := max (Int.toNat (rha (f64v (f64v width * r)))) 1
  let nh := max (Int.toNat (rha (f64v (f64v height * r)))) 1
  if u32max < nw then
    let r2 := f64v (f64v u32max / f64v width)
    (u32max, max (min (Int.toNat (rha (f64v (f64v height * r2)))) u32max) 1)
  else if u32max < nh then
    let r2 := f64v (f64v u32max / f64v height)
    (max (min (Int.toNat (rha (f64v (f64v width * r2)))) u32max) 1, u32max)
  else (nw, nh)

/-- The dimensions of the raster handed to the encoder when resizing is
enabled: the composited canvas `(w, h)` is resized by the library into the box
computed by `resize_box`. -/
def resized_dims (w h t : ℕ) : ℕ × ℕ :=
  let box := resize_box w h t
  resize_dimensions w h box.1 box.2

/-- The output formats selectable in the UI (src/main.rs lines 60-67). -/
inductive OutputFormat
  | png
  | jpeg
  | tiff
  | avif
  | webp
deriving DecidableEq

/-- The per-format export options carried by `ProcessInfo`. -/
structure ExportOpts where
  jpeg_quality : ℕ
  avif_quality : ℕ
  avif_speed : ℕ

/-- Which buffer an encoder arm consumes: the native `DynamicImage` or the
RGB8 conversion `resized_img.to_rgb8()` with alpha dropped. -/
inductive BufferKind
  | native
  | rgb8
deriving DecidableEq

/-- The encoder construction used by an arm of the dispatch. -/
inductive EncoderParams
  | pngDefault
  | jpegQuality (q : ℕ)
  | tiffDefault
  | avifSpeedQuality (s q : ℕ)
  | webpLossless
deriving DecidableEq

/-- The single file write performed by one invocation of the encoder
dispatch: the file name, the buffer consumed, and the encoder parameters. -/
structure WritePlan where
  filename : String
  buffer : BufferKind
  par : EncoderParams
deriving DecidableEq

/-- The encoder dispatch of `add_border` (src/main.rs lines 303-362).  Each
arm writes exactly one file `"{stem}_bordered.{ext}"`; the PNG arm saves the
native buffer with `save_with_format`, every other arm feeds the RGB8
conversion to an encoder constructed with the arm's parameters. -/
def encode_dispatch (fmt : OutputFormat) (o : ExportOpts) (stem : String) : WritePlan :=
  match fmt with
  | .png => ⟨stem ++ "_bordered.png", .native, .pngDefault⟩
  | .jpeg => ⟨stem ++ "_bordered.jpg", .rgb8, .jpegQuality o.jpeg_quality⟩
  | .tiff => ⟨stem ++ "_bordered.tiff", .rgb8, .tiffDefault⟩
  | .avif => ⟨stem ++ "_bordered.avif", .rgb8, .avifSpeedQuality o.avif_speed o.avif_quality⟩
  | .webp => ⟨stem ++ "_bordered.webp", .rgb8, .webpLossless⟩

/-- The file extension the specification associates with each format. -/
def ext_of : OutputFormat → String
  | .png => "png"
  | .jpeg => "jpg"
  | .tiff => "tiff"
  | .avif => "avif"
  | .webp => "webp"

/-- Outcome of one `add_border` call: normal return, an `Err` return value, or
a panic that unwinds the calling task. -/
inductive BorderOutcome
  | ok
  | errorResult
  | panicked
deriving DecidableEq

/-- The environment one `add_border` call runs against: the decode result of
`image::open` (dimensions on success), the border parameters, and whether the
three fallible I/O steps succeed. -/
structure JobEnv where
  decoded : Option (ℕ × ℕ)
  p : ℚ
  symmetrical : Bool
  mkdir_ok : Bool
  write_ok : Bool
  encode_ok : Bool

/-- Control-flow skeleton of `add_border` (src/main.rs lines 248-367):
`image::open?` propagates a decode failure as `Err`; the geometry may panic on
`u32` underflow; `fs::create_dir_all(..).expect(..)` panics on failure; the
output-file creation and the encoder calls propagate failures with `?`. -/
def add_border_run (j : JobEnv) : BorderOutcome :=
  match j.decoded with
  | none => .errorResult
  | some (w, h) =>
    match add_border_geometry w h j.p j.symmetrical with
    | none => .panicked
    | some _ =>
      if j.mkdir_ok = false then .panicked
      else if j.write_ok = false then .errorResult
      else if j.encode_ok = false then .errorResult
      else .ok

/-- Externally visible effects of one spawned per-image task. -/
structure TaskEffect where
  logged : Bool
  completion_sent : Bool
deriving DecidableEq

/-- The per-image task body spawned by `BorderApp::process_images`
(src/main.rs lines 217-224): an `Err` from `add_border` is logged with
`eprintln!` and the `ImageComplete` message is sent; a panic unwinds the task
before either happens (the tokio runtime catches it, so sibling tasks and the
process continue). -/
def process_one (j : JobEnv) : TaskEffect :=
  match add_border_run j with
  | .ok => ⟨false, true⟩
  | .errorResult => ⟨true, true⟩
  | .panicked => ⟨false, false⟩

/-- A batch spawns one independent task per image (src/main.rs line 202). -/
def process_batch (jobs : List JobEnv) : List TaskEffect :=
  jobs.map process_one

/-- The fields of `BorderApp` involved in progress tracking. -/
structure AppState where
  processing : Bool
  completed : ℤ
  max_images : ℤ
  status : String
deriving DecidableEq

/-- The state of a freshly constructed `BorderApp` (src/main.rs lines 75-101). -/
def init_app : AppState :=
  ⟨false, 0, 0, ""⟩

/-- The state changes `BorderApp::process_images` makes when a batch of `n`
images starts (src/main.rs lines 191-198).  `completed_images` is not
touched. -/
def start_processing (s : AppState) (n : ℕ) : AppState :=
  { s with max_images := (n : ℤ), processing := true, status := "Processing images..." }

/-- The handling of one `MessageResult::ImageComplete` message in
`BorderApp::update` (src/main.rs lines 436-445). -/
def on_image_complete (s : AppState) : AppState :=
  let s1 := if s.processing then { s with completed := s.completed + 1 } else s
  if s1.max_images ≤ s1.completed
  then { s1 with processing := false, status := "Processing complete." }
  else s1

/-- Deliver `k` consecutive `ImageComplete` messages. -/
def run_completions (s : AppState) : ℕ → AppState
  | 0 => s
  | k + 1 => run_completions (on_image_complete s) k

/-- State of the preview-task machinery: the outstanding `JoinHandle` in
`current_preview`, the set of spawned tasks with their captured border
parameters, which tasks have started and finished their single poll, which
were aborted, the FIFO message queue, the displayed preview parameters, and
the history of user requests. -/
structure PrevState where
  next_id : ℕ
  current : Option ℕ
  tasks : List (ℕ × ℕ)
  begun : List ℕ
  ended : List ℕ
  aborted : List ℕ
  queue : List ℕ
  displayed : Option ℕ
  requests : List ℕ
deriving DecidableEq

/-- The preview machinery before any user interaction. -/
def init_prev : PrevState :=
  ⟨0, none, [], [], [], [], [], none, []⟩

/-- Atomic events of the preview lifecycle.  A preview task's async block has
no await points, so its poll is a single uninterruptible unit: `beginPoll`
marks the poll starting (only possible if the task was not aborted first) and
`endPoll` marks it completing and sending its `PreviewResult`; an abort issued
between the two cannot stop it. -/
inductive PEvent
  | userChange (p : ℕ)
  | beginPoll (t : ℕ)
  | endPoll (t : ℕ)
  | drain
deriving DecidableEq

/-- One step of the preview lifecycle.  `userChange p` is the slider handler
(src/main.rs lines 599-626): it aborts the handle in `current_preview`, spawns
a new task capturing `p` and stores its handle.  `drain` is the start of
`BorderApp::update` (lines 423-428): every queued `PreviewResult` is applied
in FIFO order, unconditionally.  Returns `none` for an event that cannot
occur. -/
def pstep (s : PrevState) : PEvent → Option PrevState
  | .userChange p =>
    let ab := match s.current with
      | some t => t :: s.aborted
      | none => s.aborted
    some { s with aborted := ab, current := some s.next_id,
                  tasks := (s.next_id, p) :: s.tasks, next_id := s.next_id + 1,
                  requests := s.requests ++ [p] }
  | .beginPoll t =>
    if t ∈ s.tasks.map Prod.fst ∧ t ∉ s.begun ∧ t ∉ s.ended ∧ t ∉ s.aborted
    then some { s with begun := t :: s.begun }
    else none
  | .endPoll t =>
    match s.tasks.find? (fun tp => tp.fst == t) with
    | some tp =>
      if t ∈ s.begun
      then some { s with queue := s.queue ++ [tp.snd],
                         begun := s.begun.erase t, ended := t :: s.ended }
      else none
    | none => none
  | .drain =>
    some { s with displayed := s.queue.foldl (fun _d q => some q) s.displayed,
                  queue := [] }

/-- Run a sequence of preview-lifecycle events from the initial state. -/
def run_prev (es : List PEvent) : Option PrevState :=
  es.foldlM pstep init_prev

/-- The interleaving refuting last-request-wins: the first preview task has
begun its poll when the second slider change aborts it, so it still completes;
the second task finishes first, and the drain then applies the stale result
last. -/
def stale_preview_trace : List PEvent :=
  [PEvent.userChange 1, PEvent.beginPoll 0, PEvent.userChange 2,
   PEvent.beginPoll 1, PEvent.endPoll 1, PEvent.endPoll 0, PEvent.drain]

/-! ### Properties of the rounding primitives -/

theorem rne_intCast (n : ℤ) : rne (n : ℚ) = n := by
  unfold rne
  rw [Int.floor_intCast]
  rw [if_pos]
  rw [sub_self]
  norm_num

theorem rne_natCast (n : ℕ) : rne (n : ℚ) = n := by
  rw [show ((n : ℚ)) = ((n : ℤ) : ℚ) by push_cast; rfl]
  exact rne_intCast n

theorem rne_floor_le (q : ℚ) : ⌊q⌋ ≤ rne q := by
  unfold rne
  split_ifs <;> omega

theorem rne_le_floor_add_one (q : ℚ) : rne q ≤ ⌊q⌋ + 1 := by
  unfold rne
  split_ifs <;> omega

theorem rne_nonneg {q : ℚ} (h : 0 ≤ q) : 0 ≤ rne q := by
  have h1 : (0 : ℤ) ≤ ⌊q⌋ := Int.floor_nonneg.mpr h
  have h2 := rne_floor_le q
  omega

theorem rne_mono {a b : ℚ} (hab : a ≤ b) : rne a ≤ rne b := by
  have hf : ⌊a⌋ ≤ ⌊b⌋ := Int.floor_le_floor hab
  rcases eq_or_lt_of_le hf with heq | hlt
  · have hfr : a - ⌊a⌋ ≤ b - ⌊b⌋ := by
      rw [← heq]
      push_cast
      linarith
    unfold rne
    rw [← heq]
    split_ifs <;> first | omega | linarith
  · have h1 := rne_le_floor_add_one a
    have h2 := rne_floor_le b
    omega

theorem rne_eq_low {q : ℚ} {n : ℤ} (h1 : (n : ℚ) ≤ q) (h2 : q < (n : ℚ) + 1 / 2) :
    rne q = n := by
  have hfl : ⌊q⌋ = n := by
    rw [Int.floor_eq_iff]
    constructor
    · exact h1
    · push_cast
      linarith
  unfold rne
  rw [hfl]
  rw [if_pos]
  linarith

theorem rne_eq_high {q : ℚ} {n : ℤ} (h1 : (n : ℚ) + 1 / 2 < q) (h2 : q ≤ (n : ℚ) + 1) :
    rne q = n + 1 := by
  rcases eq_or_lt_of_le h2 with heq | hlt
  · rw [heq]
    rw [show ((n : ℚ) + 1) = (((n + 1 : ℤ)) : ℚ) by push_cast; ring]
    exact rne_intCast (n + 1)
  · have hfl : ⌊q⌋ = n := by
      rw [Int.floor_eq_iff]
      constructor
      · push_cast
        linarith
      · push_cast
        linarith
    unfold rne
    rw [hfl]
    rw [if_neg (by push_cast; linarith)]
    rw [if_pos]
    push_cast
    linarith

theorem rne_eq_half_even {q : ℚ} {n : ℤ} (h1 : q = (n : ℚ) + 1 / 2) (h2 : 2 ∣ n) :
    rne q = n := by
  have hfl : ⌊q⌋ = n := by
    rw [Int.floor_eq_iff]
    rw [h1]
    constructor
    · linarith
    · push_cast
      linarith
  unfold rne
  rw [hfl]
  rw [if_neg (by rw [h1]; push_cast; linarith)]
  rw [if_neg (by rw [h1]; push_cast; linarith)]
  rw [if_pos h2]

theorem rha_intCast (n : ℤ) (h : 0 ≤ n) : rha (n : ℚ) = n := by
  unfold rha
  rw [if_pos (by exact_mod_cast h)]
  rw [Int.floor_eq_iff]
  constructor
  · linarith
  · push_cast
    linarith

theorem nlog2pair_spec {a b : ℕ} (ha : 0 < a) (hb : 0 < b) :
    (2 : ℚ) ^ nlog2pair a b ≤ (a : ℚ) / b ∧ (a : ℚ) / b < (2 : ℚ) ^ (nlog2pair a b + 1) := by
  have h1a : 2 ^ Nat.log 2 a ≤ a := Nat.pow_log_le_self 2 (by omega)
  have h2a : a < 2 ^ (Nat.log 2 a + 1) := Nat.lt_pow_succ_log_self (by norm_num) a
  have h1b : 2 ^ Nat.log 2 b ≤ b := Nat.pow_log_le_self 2 (by omega)
  have h2b : b < 2 ^ (Nat.log 2 b + 1) := Nat.lt_pow_succ_log_self (by norm_num) b
  unfold nlog2pair
  by_cases hc : b * 2 ^ Nat.log 2 a ≤ a * 2 ^ Nat.log 2 b
  · rw [if_pos hc]
    constructor
    · rw [zpow_sub₀ two_ne_zero, zpow_natCast, zpow_natCast]
      rw [div_le_div_iff (by positivity) (by positivity)]
      have hc2 : (b : ℚ) * 2 ^ Nat.log 2 a ≤ (a : ℚ) * 2 ^ Nat.log 2 b := by
        exact_mod_cast hc
      linarith
    · rw [show (Nat.log 2 a : ℤ) - (Nat.log 2 b : ℤ) + 1
            = ((Nat.log 2 a + 1 : ℕ) : ℤ) - ((Nat.log 2 b : ℕ) : ℤ) by push_cast; ring]
      rw [zpow_sub₀ two_ne_zero, zpow_natCast, zpow_natCast]
      rw [div_lt_div_iff (by positivity) (by positivity)]
      have key : a * 2 ^ Nat.log 2 b < 2 ^ (Nat.log 2 a + 1) * b := by
        calc a * 2 ^ Nat.log 2 b < 2 ^ (Nat.log 2 a + 1) * 2 ^ Nat.log 2 b := by
              exact (Nat.mul_lt_mul_right (by positivity)).mpr h2a
          _ ≤ 2 ^ (Nat.log 2 a + 1) * b := Nat.mul_le_mul_left _ h1b
      exact_mod_cast key
  · rw [if_neg hc]
    push_neg at hc
    constructor
    · rw [show (Nat.log 2 a : ℤ) - (Nat.log 2 b : ℤ) - 1
            = ((Nat.log 2 a : ℕ) : ℤ) - ((Nat.log 2 b + 1 : ℕ) : ℤ) by push_cast; ring]
      rw [zpow_sub₀ two_ne_zero, zpow_natCast, zpow_natCast]
      rw [div_le_div_iff (by positivity) (by positivity)]
      have key : 2 ^ Nat.log 2 a * b ≤ a * 2 ^ (Nat.log 2 b + 1) := by
        calc 2 ^ Nat.log 2 a * b ≤ a * b := Nat.mul_le_mul_right b h1a
          _ ≤ a * 2 ^ (Nat.log 2 b + 1) := Nat.mul_le_mul_left a h2b.le
      exact_mod_cast key
    · rw [show (Nat.log 2 a : ℤ) - (Nat.log 2 b : ℤ) - 1 + 1
            = ((Nat.log 2 a : ℕ) : ℤ) - ((Nat.log 2 b : ℕ) : ℤ) by push_cast; ring]
      rw [zpow_sub₀ two_ne_zero, zpow_natCast, zpow_natCast]
      rw [div_lt_div_iff (by positivity) (by positivity)]
      have hc2 : (a : ℚ) * 2 ^ Nat.log 2 b < (b : ℚ) * 2 ^ Nat.log 2 a := by
        exact_mod_cast hc
      linarith

theorem ilog2q_spec {q : ℚ} (hq : 0 < q) :
    (2 : ℚ) ^ ilog2q q ≤ q ∧ q < (2 : ℚ) ^ (ilog2q q + 1) := by
  have hnum : 0 < q.num := Rat.num_pos.mpr hq
  have hkey : q = ((q.num.toNat : ℕ) : ℚ) / ((q.den : ℕ) : ℚ) := by
    have h1 : ((q.num.toNat : ℤ) : ℚ) = (q.num : ℚ) := by
      rw [Int.toNat_of_nonneg hnum.le]
    push_cast at h1
    rw [h1, Rat.num_div_den]
  have := nlog2pair_spec (a := q.num.toNat) (b := q.den) (by omega) q.den_pos
  rw [← hkey] at this
  exact this

theorem ilog2q_unique {q : ℚ} {k : ℤ} (hq : 0 < q)
    (h1 : (2 : ℚ) ^ k ≤ q) (h2 : q < (2 : ℚ) ^ (k + 1)) : ilog2q q = k := by
  obtain ⟨g1, g2⟩ := ilog2q_spec hq
  by_contra hne
  rcases lt_or_gt_of_ne hne with hlt | hgt
  · have : (2 : ℚ) ^ (ilog2q q + 1) ≤ 2 ^ k := zpow_le_zpow_right₀ one_le_two (by omega)
    linarith
  · have : (2 : ℚ) ^ (k + 1) ≤ 2 ^ ilog2q q := zpow_le_zpow_right₀ one_le_two (by omega)
    linarith

theorem ilog2q_mono {a b : ℚ} (ha : 0 < a) (hab : a ≤ b) : ilog2q a ≤ ilog2q b := by
  obtain ⟨a1, a2⟩ := ilog2q_spec ha
  obtain ⟨b1, b2⟩ := ilog2q_spec (lt_of_lt_of_le ha hab)
  by_contra h
  push_neg at h
  have : (2 : ℚ) ^ (ilog2q b + 1) ≤ 2 ^ ilog2q a := zpow_le_zpow_right₀ one_le_two (by omega)
  linarith

theorem froundPos_eval (mb : ℕ) (emin : ℤ) {q : ℚ} {k : ℤ} (hq : 0 < q)
    (h1 : (2 : ℚ) ^ k ≤ q) (h2 : q < (2 : ℚ) ^ (k + 1)) :
    froundPos mb emin q
      = ((rne (q / 2 ^ max (k - mb) emin) : ℤ) : ℚ) * 2 ^ max (k - mb) emin := by
  unfold froundPos
  rw [ilog2q_unique hq h1 h2]

theorem froundPos_nonneg (mb : ℕ) (emin : ℤ) {q : ℚ} (hq : 0 < q) :
    0 ≤ froundPos mb emin q := by
  unfold froundPos
  have h1 : (0 : ℤ) ≤ rne (q / 2 ^ max (ilog2q q - mb) emin) :=
    rne_nonneg (by positivity)
  have h2 : (0 : ℚ) ≤ 2 ^ max (ilog2q q - mb) emin := by positivity
  exact mul_nonneg (by exact_mod_cast h1) h2

theorem froundPos_le_pow (mb : ℕ) (emin : ℤ) {q : ℚ} (hq : 0 < q) :
    froundPos mb emin q ≤ (2 : ℚ) ^ (ilog2q q + 1) := by
  obtain ⟨g1, g2⟩ := ilog2q_spec hq
  rw [froundPos_eval mb emin hq g1 g2]
  obtain ⟨k, hkdef⟩ : ∃ k, ilog2q q = k := ⟨_, rfl⟩
  rw [hkdef] at g1 g2 ⊢
  obtain ⟨e, hedef⟩ : ∃ e, max (k - (mb : ℤ)) emin = e := ⟨_, rfl⟩
  rw [hedef]
  by_cases hce : e ≤ k + 1
  · have hNq : (((2 : ℤ) ^ (k + 1 - e).toNat : ℤ) : ℚ) = (2 : ℚ) ^ (k + 1 - e) := by
      push_cast
      rw [← zpow_natCast]
      congr 1
      omega
    have hx : q / 2 ^ e < (((2 : ℤ) ^ (k + 1 - e).toNat : ℤ) : ℚ) := by
      rw [hNq, div_lt_iff (by positivity), ← zpow_add₀ (two_ne_zero)]
      rw [show k + 1 - e + e = k + 1 by ring]
      exact g2
    have hrne : rne (q / 2 ^ e) ≤ (2 : ℤ) ^ (k + 1 - e).toNat := by
      have hfl : ⌊q / 2 ^ e⌋ < (2 : ℤ) ^ (k + 1 - e).toNat := Int.floor_lt.mpr hx
      have h2 := rne_le_floor_add_one (q / 2 ^ e)
      omega
    calc ((rne (q / 2 ^ e) : ℤ) : ℚ) * 2 ^ e
        ≤ (((2 : ℤ) ^ (k + 1 - e).toNat : ℤ) : ℚ) * 2 ^ e := by
          apply mul_le_mul_of_nonneg_right _ (by positivity)
          exact_mod_cast hrne
      _ = 2 ^ (k + 1) := by
          rw [hNq, ← zpow_add₀ two_ne_zero]
          congr 1
          ring
  · push_neg at hce
    have hsmall : q / 2 ^ e < 1 / 2 := by
      rw [div_lt_iff (by positivity)]
      have h6 : 1 / 2 * (2 : ℚ) ^ e = 2 ^ (e - 1) := by
        rw [zpow_sub₀ two_ne_zero, zpow_one]
        ring
      calc q < 2 ^ (k + 1) := g2
        _ ≤ 2 ^ (e - 1) := zpow_le_zpow_right₀ one_le_two (by omega)
        _ = 1 / 2 * 2 ^ e := h6.symm
    have hfl : ⌊q / 2 ^ e⌋ = 0 := by
      rw [Int.floor_eq_zero_iff, Set.mem_Ico]
      constructor
      · positivity
      · linarith
    have hrne0 : rne (q / 2 ^ e) = 0 := by
      unfold rne
      rw [hfl]
      rw [if_pos (by push_cast; linarith)]
    rw [hrne0]
    simp only [Int.cast_zero, zero_mul]
    positivity

theorem froundPos_ge_pow (mb : ℕ) (emin : ℤ) {q : ℚ} (hq : 0 < q)
    (hemin : emin ≤ ilog2q q) : (2 : ℚ) ^ ilog2q q ≤ froundPos mb emin q := by
  obtain ⟨g1, g2⟩ := ilog2q_spec hq
  rw [froundPos_eval mb emin hq g1 g2]
  obtain ⟨k, hkdef⟩ : ∃ k, ilog2q q = k := ⟨_, rfl⟩
  rw [hkdef] at g1 g2 hemin ⊢
  obtain ⟨e, hedef⟩ : ∃ e, max (k - (mb : ℤ)) emin = e := ⟨_, rfl⟩
  rw [hedef]
  have hek : e ≤ k := by omega
  have hNq : (((2 : ℤ) ^ (k - e).toNat : ℤ) : ℚ) = (2 : ℚ) ^ (k - e) := by
    push_cast
    rw [← zpow_natCast]
    congr 1
    omega
  have hx : (((2 : ℤ) ^ (k - e).toNat : ℤ) : ℚ) ≤ q / 2 ^ e := by
    rw [hNq, le_div_iff (by positivity), ← zpow_add₀ two_ne_zero]
    rw [show k - e + e = k by ring]
    exact g1
  have hrne : (2 : ℤ) ^ (k - e).toNat ≤ rne (q / 2 ^ e) :=
    le_trans (Int.le_floor.mpr hx) (rne_floor_le _)
  calc (2 : ℚ) ^ k = (((2 : ℤ) ^ (k - e).toNat : ℤ) : ℚ) * 2 ^ e := by
        rw [hNq, ← zpow_add₀ two_ne_zero]
        congr 1
        ring
    _ ≤ ((rne (q / 2 ^ e) : ℤ) : ℚ) * 2 ^ e := by
        apply mul_le_mul_of_nonneg_right _ (by positivity)
        exact_mod_cast hrne

theorem froundPos_mono (mb : ℕ) (emin : ℤ) {a b : ℚ} (ha : 0 < a) (hab : a ≤ b) :
    froundPos mb emin a ≤ froundPos mb emin b := by
  have hb : 0 < b := lt_of_lt_of_le ha hab
  obtain ⟨a1, a2⟩ := ilog2q_spec ha
  obtain ⟨b1, b2⟩ := ilog2q_spec hb
  have hk : ilog2q a ≤ ilog2q b := ilog2q_mono ha hab
  rcases eq_or_lt_of_le
      (show max (ilog2q a - (mb : ℤ)) emin ≤ max (ilog2q b - (mb : ℤ)) emin by omega)
    with heq | hlt
  · rw [froundPos_eval mb emin ha a1 a2, froundPos_eval mb emin hb b1 b2, heq]
    apply mul_le_mul_of_nonneg_right _ (by positivity)
    have hdiv : a / 2 ^ max (ilog2q b - (mb : ℤ)) emin
        ≤ b / 2 ^ max (ilog2q b - (mb : ℤ)) emin := by gcongr
    exact_mod_cast rne_mono hdiv
  · have hemin_b : emin ≤ ilog2q b := by omega
    have hk1 : ilog2q a + 1 ≤ ilog2q b := by omega
    have h1 : froundPos mb emin a ≤ 2 ^ (ilog2q a + 1) := froundPos_le_pow mb emin ha
    have h2 : (2 : ℚ) ^ ilog2q b ≤ froundPos mb emin b := froundPos_ge_pow mb emin hb hemin_b
    have h3 : (2 : ℚ) ^ (ilog2q a + 1) ≤ 2 ^ ilog2q b := zpow_le_zpow_right₀ one_le_two hk1
    linarith

theorem froundPos_int_fix (mb : ℕ) (emin : ℤ) {n : ℕ} (h1 : 0 < n)
    (h2 : n ≤ 2 ^ (mb + 1)) (he : emin ≤ 0) : froundPos mb emin (n : ℚ) = n := by
  have hq : (0 : ℚ) < n := by exact_mod_cast h1
  obtain ⟨g1, g2⟩ := ilog2q_spec hq
  by_cases hee : max (ilog2q (n : ℚ) - (mb : ℤ)) emin ≤ 0
  · rw [froundPos_eval mb emin hq g1 g2]
    obtain ⟨e, hedef⟩ : ∃ e, max (ilog2q (n : ℚ) - (mb : ℤ)) emin = e := ⟨_, rfl⟩
    rw [hedef] at hee ⊢
    have h2c : ((2 : ℚ) ^ ((-e).toNat : ℕ)) = (2 : ℚ) ^ (-e) := by
      rw [← zpow_natCast]
      congr 1
      omega
    have hval : (n : ℚ) / 2 ^ e = ((n * 2 ^ (-e).toNat : ℕ) : ℚ) := by
      push_cast
      rw [h2c, div_eq_mul_inv, ← zpow_neg]
    rw [hval, rne_natCast]
    push_cast
    rw [h2c, mul_assoc, ← zpow_add₀ two_ne_zero]
    rw [show -e + e = 0 by ring]
    simp
  · push_neg at hee
    have hkmb : (mb : ℤ) + 1 ≤ ilog2q (n : ℚ) := by omega
    have h2n : 2 ^ (mb + 1) ≤ n := by
      have hle : (2 : ℚ) ^ ((mb : ℤ) + 1) ≤ (n : ℚ) :=
        le_trans (zpow_le_zpow_right₀ one_le_two hkmb) g1
      have hcast : ((2 ^ (mb + 1) : ℕ) : ℚ) = (2 : ℚ) ^ ((mb : ℤ) + 1) := by
        push_cast
        rw [← zpow_natCast]
        congr 1
      rw [← hcast] at hle
      exact_mod_cast hle
    have hneq : n = 2 ^ (mb + 1) := by omega
    subst hneq
    have hq1 : (2 : ℚ) ^ ((mb : ℤ) + 1) ≤ ((2 ^ (mb + 1) : ℕ) : ℚ) := by
      push_cast
      rw [← zpow_natCast]
      apply le_of_eq
      congr 1
    have hq2 : ((2 ^ (mb + 1) : ℕ) : ℚ) < (2 : ℚ) ^ ((mb : ℤ) + 1 + 1) := by
      push_cast
      rw [← zpow_natCast]
      exact zpow_lt_zpow_right₀ one_lt_two (by omega)
    rw [froundPos_eval mb emin hq hq1 hq2]
    rw [show max ((mb : ℤ) + 1 - mb) emin = 1 by omega]
    have hv : ((2 ^ (mb + 1) : ℕ) : ℚ) / 2 ^ (1 : ℤ) = ((2 ^ mb : ℕ) : ℚ) := by
      push_cast
      rw [pow_succ, zpow_one]
      field_simp
    rw [hv, rne_natCast]
    push_cast
    rw [zpow_one, pow_succ]

theorem fround_zero (mb : ℕ) (emin : ℤ) : fround mb emin 0 = 0 := by
  unfold fround
  norm_num

theorem fround_of_pos (mb : ℕ) (emin : ℤ) {q : ℚ} (hq : 0 < q) :
    fround mb emin q = froundPos mb emin q := by
  unfold fround
  rw [if_pos hq]

theorem fround_nonneg (mb : ℕ) (emin : ℤ) {q : ℚ} (hq : 0 ≤ q) :
    0 ≤ fround mb emin q := by
  rcases eq_or_lt_of_le hq with heq | hlt
  · rw [← heq, fround_zero]
  · rw [fround_of_pos mb emin hlt]
    exact froundPos_nonneg mb emin hlt

theorem fround_mono (mb : ℕ) (emin : ℤ) {a b : ℚ} (ha : 0 ≤ a) (hab : a ≤ b) :
    fround mb emin a ≤ fround mb emin b := by
  rcases eq_or_lt_of_le ha with heq | hlt
  · rw [← heq, fround_zero]
    exact fround_nonneg mb emin (le_trans ha hab)
  · rw [fround_of_pos mb emin hlt, fround_of_pos mb emin (lt_of_lt_of_le hlt hab)]
    exact froundPos_mono mb emin hlt hab

theorem fround_nat_fix (mb : ℕ) (emin : ℤ) {n : ℕ} (h1 : 0 < n)
    (h2 : n ≤ 2 ^ (mb + 1)) (he : emin ≤ 0) : fround mb emin (n : ℚ) = n := by
  rw [fround_of_pos mb emin (by exact_mod_cast h1)]
  exact froundPos_int_fix mb emin h1 h2 he

theorem f32v_nat_fix {n : ℕ} (h1 : 0 < n) (h2 : n ≤ 2 ^ 24) : f32v (n : ℚ) = n := by
  unfold f32v
  exact fround_nat_fix 23 (-149) h1 h2 (by norm_num)

theorem f64v_nat_fix {n : ℕ} (h1 : 0 < n) (h2 : n ≤ 2 ^ 53) : f64v (n : ℚ) = n := by
  unfold f64v
  exact fround_nat_fix 52 (-1074) h1 h2 (by norm_num)

theorem f32v_one : f32v 1 = 1 := by
  have := f32v_nat_fix (n := 1) (by norm_num) (by norm_num)
  simpa using this

theorem f64v_one : f64v 1 = 1 := by
  have := f64v_nat_fix (n := 1) (by norm_num) (by norm_num)
  simpa using this

theorem f32v_zero : f32v 0 = 0 := fround_zero 23 (-149)

theorem f32v_nonneg {q : ℚ} (hq : 0 ≤ q) : 0 ≤ f32v q := fround_nonneg 23 (-149) hq

theorem f64v_nonneg {q : ℚ} (hq : 0 ≤ q) : 0 ≤ f64v q := fround_nonneg 52 (-1074) hq

theorem f32v_mono {a b : ℚ} (ha : 0 ≤ a) (hab : a ≤ b) : f32v a ≤ f32v b :=
  fround_mono 23 (-149) ha hab

theorem f64v_mono {a b : ℚ} (ha : 0 ≤ a) (hab : a ≤ b) : f64v a ≤ f64v b :=
  fround_mono 52 (-1074) ha hab

theorem u32cast_nat {n : ℕ} (h : n ≤ u32max) : u32cast (n : ℚ) = n := by
  unfold u32cast
  rw [Int.floor_natCast]
  simp [h]

theorem u32cast_le {q : ℚ} {t : ℕ} (h : q ≤ (t : ℚ)) : u32cast q ≤ t := by
  unfold u32cast
  have h1 : ⌊q⌋ ≤ (t : ℤ) := by
    have h2 := Int.floor_le_floor h
    rwa [Int.floor_natCast] at h2
  omega

theorem le_u32cast {q : ℚ} {l : ℕ} (h : (l : ℚ) ≤ q) (hl : l ≤ u32max) :
    l ≤ u32cast q := by
  unfold u32cast
  have h1 : (l : ℤ) ≤ ⌊q⌋ := Int.le_floor.mpr (by exact_mod_cast h)
  omega

theorem pow24_le_u32max : 2 ^ 24 ≤ u32max := by
  unfold u32max
  norm_num

theorem new_size_ge {l : ℕ} {p : ℚ} (h1 : 0 < l) (h2 : l ≤ 2 ^ 24) (hp : 0 ≤ p) :
    l ≤ new_size_calc l p := by
  unfold new_size_calc
  have hq0 : 0 ≤ f32v (p / 100) := f32v_nonneg (by positivity)
  have hf1 : (1 : ℚ) ≤ f32v (1 + f32v (p / 100)) := by
    calc (1 : ℚ) = f32v 1 := f32v_one.symm
      _ ≤ f32v (1 + f32v (p / 100)) := f32v_mono (by norm_num) (by linarith)
  have hfl : f32v (l : ℚ) = l := f32v_nat_fix h1 h2
  have hprod : (l : ℚ) ≤ (l : ℚ) * f32v (1 + f32v (p / 100)) := by
    calc (l : ℚ) = l * 1 := by ring
      _ ≤ (l : ℚ) * f32v (1 + f32v (p / 100)) :=
          mul_le_mul_of_nonneg_left hf1 (by positivity)
  have houter : (l : ℚ) ≤ f32v (f32v (l : ℚ) * f32v (1 + f32v (p / 100))) := by
    rw [hfl]
    calc (l : ℚ) = f32v (l : ℚ) := hfl.symm
      _ ≤ f32v ((l : ℚ) * f32v (1 + f32v (p / 100))) := f32v_mono (by positivity) hprod
  exact le_u32cast houter (le_trans h2 pow24_le_u32max)

theorem new_size_zero {l : ℕ} (h1 : 0 < l) (h2 : l ≤ 2 ^ 24) : new_size_calc l 0 = l := by
  unfold new_size_calc
  rw [show (0 : ℚ) / 100 = 0 by norm_num, f32v_zero]
  rw [show (1 : ℚ) + 0 = 1 by norm_num, f32v_one]
  rw [f32v_nat_fix h1 h2, mul_one, f32v_nat_fix h1 h2]
  exact u32cast_nat (le_trans h2 pow24_le_u32max)

theorem new_size_3_0 : new_size_calc 3 0 = 3 := new_size_zero (by norm_num) (by norm_num)

theorem geom_3_2_sym : add_border_geometry 3 2 0 true = some (3, 2, 0, 0) := by
  unfold add_border_geometry
  norm_num [new_size_3_0]

theorem geom_3_2_asym : add_border_geometry 3 2 0 false = some (3, 3, 0, 0) := by
  unfold add_border_geometry
  norm_num [new_size_3_0]

/-! ### Claim theorems: geometry -/

/-- C1: for every source image with positive dimensions and every border
percentage in `[0, 50]`, the geometry `add_border` computes satisfies the
canvas invariant: in asymmetric mode the canvas is square with side the grown
longest dimension, and in symmetric mode both axes are padded by the same
delta, derived from the longest original dimension. -/
theorem c1_canvas_invariant (w h : ℕ) (p : ℚ) (sym : Bool) (nw nh xo yo : ℕ)
    (hw : 0 < w) (hh : 0 < h) (hp0 : 0 ≤ p) (hp50 : p ≤ 50)
    (hg : add_border_geometry w h p sym = some (nw, nh, xo, yo)) :
    (sym = false → nw = new_size_calc (max w h) p ∧ nh = new_size_calc (max w h) p) ∧
    (sym = true →
      nw = w + (new_size_calc (max w h) p - max w h) ∧
      nh = h + (new_size_calc (max w h) p - max w h) ∧
      nw - w = nh - h) := by
  unfold add_border_geometry at hg
  cases sym
  · refine ⟨fun _ => ?_, fun hc => by simp at hc⟩
    simp only [Bool.false_eq_true, if_false] at hg
    by_cases hcond : new_size_calc (max w h) p < w ∨ new_size_calc (max w h) p < h
    · rw [if_pos hcond] at hg
      simp at hg
    · rw [if_neg hcond] at hg
      simp only [Option.some.injEq, Prod.mk.injEq] at hg
      obtain ⟨h1, h2, h3, h4⟩ := hg
      exact ⟨h1.symm, h2.symm⟩
  · refine ⟨fun hc => by simp at hc, fun _ => ?_⟩
    simp only [if_true] at hg
    by_cases hcond : new_size_calc (max w h) p < max w h
    · rw [if_pos hcond] at hg
      simp at hg
    · rw [if_neg hcond] at hg
      simp only [Option.some.injEq, Prod.mk.injEq] at hg
      obtain ⟨h1, h2, h3, h4⟩ := hg
      refine ⟨h1.symm, h2.symm, ?_⟩
      omega

/-- C1 witness: a 3-by-2 source with a zero border percentage in symmetric
mode. -/
theorem c1_canvas_invariant_witness :
    (0 < 3 ∧ 0 < 2 ∧ (0 : ℚ) ≤ 0 ∧ (0 : ℚ) ≤ 50 ∧
      add_border_geometry 3 2 0 true = some (3, 2, 0, 0)) ∧
    ((true = false → 3 = new_size_calc (max 3 2) 0 ∧ 2 = new_size_calc (max 3 2) 0) ∧
     (true = true →
       3 = 3 + (new_size_calc (max 3 2) 0 - max 3 2) ∧
       2 = 2 + (new_size_calc (max 3 2) 0 - max 3 2) ∧
       3 - 3 = 2 - 2)) :=
  ⟨⟨by norm_num, by norm_num, le_refl 0, by norm_num, geom_3_2_sym⟩,
   c1_canvas_invariant 3 2 0 true 3 2 0 0 (by norm_num) (by norm_num) (le_refl 0)
     (by norm_num) geom_3_2_sym⟩

/-- C2: in both modes the offsets are the truncating halves of the padding,
and the source never overflows off the canvas. -/
theorem c2_offsets_centered (w h : ℕ) (p : ℚ) (sym : Bool) (nw nh xo yo : ℕ)
    (hw : 0 < w) (hh : 0 < h) (hp0 : 0 ≤ p) (hp50 : p ≤ 50)
    (hg : add_border_geometry w h p sym = some (nw, nh, xo, yo)) :
    xo = (nw - w) / 2 ∧ yo = (nh - h) / 2 ∧ xo + w ≤ nw ∧ yo + h ≤ nh := by
  unfold add_border_geometry at hg
  cases sym
  · simp only [Bool.false_eq_true, if_false] at hg
    by_cases hcond : new_size_calc (max w h) p < w ∨ new_size_calc (max w h) p < h
    · rw [if_pos hcond] at hg
      simp at hg
    · rw [if_neg hcond] at hg
      push_neg at hcond
      simp only [Option.some.injEq, Prod.mk.injEq] at hg
      obtain ⟨h1, h2, h3, h4⟩ := hg
      have d1 := Nat.div_le_self (new_size_calc (max w h) p - w) 2
      have d2 := Nat.div_le_self (new_size_calc (max w h) p - h) 2
      omega
  · simp only [if_true] at hg
    by_cases hcond : new_size_calc (max w h) p < max w h
    · rw [if_pos hcond] at hg
      simp at hg
    · rw [if_neg hcond] at hg
      simp only [Option.some.injEq, Prod.mk.injEq] at hg
      obtain ⟨h1, h2, h3, h4⟩ := hg
      have d1 := Nat.div_le_self (new_size_calc (max w h) p - max w h) 2
      omega

/-- C2 witness: a 3-by-2 source with a zero border percentage in asymmetric
mode. -/
theorem c2_offsets_centered_witness :
    (0 < 3 ∧ 0 < 2 ∧ (0 : ℚ) ≤ 0 ∧ (0 : ℚ) ≤ 50 ∧
      add_border_geometry 3 2 0 false = some (3, 3, 0, 0)) ∧
    (0 = (3 - 3) / 2 ∧ 0 = (3 - 2) / 2 ∧ 0 + 3 ≤ 3 ∧ 0 + 2 ≤ 3) :=
  ⟨⟨by norm_num, by norm_num, le_refl 0, by norm_num, geom_3_2_asym⟩,
   c2_offsets_centered 3 2 0 false 3 3 0 0 (by norm_num) (by norm_num) (le_refl 0)
     (by norm_num) geom_3_2_asym⟩

/-- C10: the composite is centered to within one pixel; the right and bottom
margins exceed the left and top margins by at most one pixel, and the extra
pixel of an odd padding always falls on the right or bottom. -/
theorem c10_centered_within_one (w h : ℕ) (p : ℚ) (sym : Bool) (nw nh xo yo : ℕ)
    (hw : 0 < w) (hh : 0 < h) (hp0 : 0 ≤ p) (hp50 : p ≤ 50)
    (hg : add_border_geometry w h p sym = some (nw, nh, xo, yo)) :
    ((nw - w) - 2 * xo = 0 ∨ (nw - w) - 2 * xo = 1) ∧
    ((nh - h) - 2 * yo = 0 ∨ (nh - h) - 2 * yo = 1) ∧
    xo ≤ (nw - w) - xo ∧ yo ≤ (nh - h) - yo := by
  unfold add_border_geometry at hg
  cases sym
  · simp only [Bool.false_eq_true, if_false] at hg
    by_cases hcond : new_size_calc (max w h) p < w ∨ new_size_calc (max w h) p < h
    · rw [if_pos hcond] at hg
      simp at hg
    · rw [if_neg hcond] at hg
      push_neg at hcond
      simp only [Option.some.injEq, Prod.mk.injEq] at hg
      obtain ⟨h1, h2, h3, h4⟩ := hg
      omega
  · simp only [if_true] at hg
    by_cases hcond : new_size_calc (max w h) p < max w h
    · rw [if_pos hcond] at hg
      simp at hg
    · rw [if_neg hcond] at hg
      simp only [Option.some.injEq, Prod.mk.injEq] at hg
      obtain ⟨h1, h2, h3, h4⟩ := hg
      omega

/-- C10 witness: a 3-by-2 source with a zero border percentage in asymmetric
mode; the vertical padding is odd and the extra pixel lands on the bottom. -/
theorem c10_centered_within_one_witness :
    (0 < 3 ∧ 0 < 2 ∧ (0 : ℚ) ≤ 0 ∧ (0 : ℚ) ≤ 50 ∧
      add_border_geometry 3 2 0 false = some (3, 3, 0, 0)) ∧
    (((3 - 3) - 2 * 0 = 0 ∨ (3 - 3) - 2 * 0 = 1) ∧
     ((3 - 2) - 2 * 0 = 0 ∨ (3 - 2) - 2 * 0 = 1) ∧
     0 ≤ (3 - 3) - 0 ∧ 0 ≤ (3 - 2) - 0) :=
  ⟨⟨by norm_num, by norm_num, le_refl 0, by norm_num, geom_3_2_asym⟩,
   c10_centered_within_one 3 2 0 false 3 3 0 0 (by norm_num) (by norm_num) (le_refl 0)
     (by norm_num) geom_3_2_asym⟩

theorem f32v_eval {q : ℚ} {k : ℤ} (hq : 0 < q) (h1 : (2 : ℚ) ^ k ≤ q)
    (h2 : q < (2 : ℚ) ^ (k + 1)) :
    f32v q = ((rne (q / 2 ^ max (k - 23) (-149)) : ℤ) : ℚ) * 2 ^ max (k - 23) (-149) := by
  unfold f32v
  rw [fround_of_pos _ _ hq]
  exact froundPos_eval 23 (-149) hq h1 h2

theorem f64v_eval {q : ℚ} {k : ℤ} (hq : 0 < q) (h1 : (2 : ℚ) ^ k ≤ q)
    (h2 : q < (2 : ℚ) ^ (k + 1)) :
    f64v q = ((rne (q / 2 ^ max (k - 52) (-1074)) : ℤ) : ℚ) * 2 ^ max (k - 52) (-1074) := by
  unfold f64v
  rw [fround_of_pos _ _ hq]
  exact froundPos_eval 52 (-1074) hq h1 h2

theorem f32v_16777217 : f32v 16777217 = 16777216 := by
  have h1 : (2 : ℚ) ^ (24 : ℤ) ≤ 16777217 := by norm_num
  have h2 : (16777217 : ℚ) < 2 ^ ((24 : ℤ) + 1) := by norm_num
  rw [f32v_eval (by norm_num) h1 h2]
  rw [show max ((24 : ℤ) - 23) (-149) = 1 by norm_num]
  have hr : rne ((16777217 : ℚ) / 2 ^ (1 : ℤ)) = 8388608 := by
    apply rne_eq_half_even
    · norm_num
    · norm_num
  rw [hr]
  norm_num

theorem new_size_16777217 : new_size_calc 16777217 0 = 16777216 := by
  unfold new_size_calc
  rw [show (0 : ℚ) / 100 = 0 by norm_num, f32v_zero]
  rw [show (1 : ℚ) + 0 = 1 by norm_num, f32v_one]
  rw [show ((16777217 : ℕ) : ℚ) = (16777217 : ℚ) by norm_num]
  rw [f32v_16777217, mul_one]
  rw [show (16777216 : ℚ) = ((16777216 : ℕ) : ℚ) by norm_num]
  rw [f32v_nat_fix (by norm_num) (by norm_num)]
  exact u32cast_nat (by unfold u32max; norm_num)

/-- C3 counterexample: at a 16777217-by-1 source (width `2^24 + 1`, beyond the
exact-integer range of `f32`) and percentage `0`, the computed `new_size`
falls below the longest dimension, so the unsigned subtractions underflow in
both modes; the claimed totality fails inside the claim's own precondition. -/
theorem c3_underflow_counterexample :
    (0 < 16777217 ∧ 0 < 1 ∧ (0 : ℚ) ≤ 0 ∧ (0 : ℚ) ≤ 50) ∧
    new_size_calc (max 16777217 1) 0 < max 16777217 1 ∧
    add_border_geometry 16777217 1 0 false = none ∧
    add_border_geometry 16777217 1 0 true = none := by
  refine ⟨⟨by norm_num, by norm_num, le_refl 0, by norm_num⟩, ?_, ?_, ?_⟩
  · rw [show max 16777217 1 = 16777217 by norm_num, new_size_16777217]
    norm_num
  · unfold add_border_geometry
    simp only [Bool.false_eq_true, if_false]
    rw [show max 16777217 1 = 16777217 by norm_num, new_size_16777217]
    rw [if_pos (by norm_num)]
  · unfold add_border_geometry
    simp only [if_true]
    rw [show max 16777217 1 = 16777217 by norm_num, new_size_16777217]
    rw [if_pos (by norm_num)]

/-- C3 amended: the geometry of `add_border` is total over positive inputs
whose longest dimension stays within the exact-integer range of `f32`
(`max w h ≤ 2^24`): there `new_size` is at least the longest dimension, no
unsigned subtraction underflows, and the panic is unreachable. -/
theorem c3_total_on_exact_range (w h : ℕ) (p : ℚ) (sym : Bool)
    (hw : 0 < w) (hh : 0 < h) (hp0 : 0 ≤ p) (hp50 : p ≤ 50)
    (hsz : max w h ≤ 2 ^ 24) :
    max w h ≤ new_size_calc (max w h) p ∧ (add_border_geometry w h p sym).isSome := by
  have hge := new_size_ge (l := max w h) (by omega) hsz hp0
  refine ⟨hge, ?_⟩
  unfold add_border_geometry
  cases sym
  · simp only [Bool.false_eq_true, if_false]
    rw [if_neg (by omega)]
    simp
  · simp only [if_true]
    rw [if_neg (by omega)]
    simp

/-- C3 amended witness: a 3-by-2 source with a zero percentage. -/
theorem c3_total_on_exact_range_witness :
    (0 < 3 ∧ 0 < 2 ∧ (0 : ℚ) ≤ 0 ∧ (0 : ℚ) ≤ 50 ∧ max 3 2 ≤ 2 ^ 24) ∧
    (max 3 2 ≤ new_size_calc (max 3 2) 0 ∧ (add_border_geometry 3 2 0 true).isSome) :=
  ⟨⟨by norm_num, by norm_num, le_refl 0, by norm_num, by norm_num⟩,
   c3_total_on_exact_range 3 2 0 true (by norm_num) (by norm_num) (le_refl 0)
     (by norm_num) (by norm_num)⟩

/-- C7: the preview pipeline and the export pipeline agree on geometry and
compositing: for every source pixel map, every blend semantics of the imaging
library, and every `(symmetrical, border_percentage)` pair, the canvas built
by `update_preview_image` before its final bounding-box downscale is identical
(same dimensions, same offsets, same white fill, same overlay) to the canvas
built by `add_border` before its optional resize and encode steps. -/
theorem c7_preview_export_agree (blend : Pix → Pix → Pix) (sw sh : ℕ)
    (src : ℕ → ℕ → Pix) (p : ℚ) (sym : Bool) :
    update_preview_geometry sw sh p sym = add_border_geometry sw sh p sym ∧
    update_preview_canvas blend sw sh src p sym
      = add_border_canvas blend sw sh src p sym :=
  ⟨rfl, rfl⟩

/-- C5: the encoder dispatch writes exactly one file `"{stem}_bordered.{ext}"`
with the extension determined by the selected format; only the PNG arm
consumes the native buffer (all others consume the RGB8 conversion with alpha
dropped); and the per-format parameters are: JPEG with the `jpeg_quality`
scalar, AVIF with `avif_speed` and `avif_quality`, WEBP lossless, TIFF and
PNG with default settings. -/
theorem c5_encoder_dispatch (fmt : OutputFormat) (o : ExportOpts) (stem : String) :
    (encode_dispatch fmt o stem).filename = stem ++ ("_bordered." ++ ext_of fmt) ∧
    ((encode_dispatch fmt o stem).buffer = BufferKind.native ↔ fmt = OutputFormat.png) ∧
    (encode_dispatch fmt o stem).par =
      (match fmt with
       | OutputFormat.png => EncoderParams.pngDefault
       | OutputFormat.jpeg => EncoderParams.jpegQuality o.jpeg_quality
       | OutputFormat.tiff => EncoderParams.tiffDefault
       | OutputFormat.avif => EncoderParams.avifSpeedQuality o.avif_speed o.avif_quality
       | OutputFormat.webp => EncoderParams.webpLossless) := by
  cases fmt <;> refine ⟨rfl, ?_, rfl⟩ <;> simp [encode_dispatch]

/-- C4 counterexample: with a readable 3-by-2 source and an output directory
that cannot be created, `add_border` panics via
`fs::create_dir_all(..).expect(..)` instead of returning an error value, and
the per-image task neither logs through the error path nor sends its
completion event. -/
theorem c4_mkdir_panic_counterexample :
    add_border_run ⟨some (3, 2), 0, true, false, true, true⟩ = BorderOutcome.panicked ∧
    add_border_run ⟨some (3, 2), 0, true, false, true, true⟩ ≠ BorderOutcome.errorResult ∧
    process_one ⟨some (3, 2), 0, true, false, true, true⟩ = ⟨false, false⟩ := by
  have hrun : add_border_run ⟨some (3, 2), 0, true, false, true, true⟩
      = BorderOutcome.panicked := by
    unfold add_border_run
    simp only [geom_3_2_sym]
    simp
  refine ⟨hrun, by rw [hrun]; simp, ?_⟩
  unfold process_one
  rw [hrun]

/-- C4 amended: when the output directory can be created (and the geometry
itself does not panic), every I/O or encode failure of `add_border` — decode
failure, file-creation failure, encoder rejection — is returned as an error
value, which the per-image task logs before sending its completion event; and
a batch processes every image independently, so one job's outcome never
affects a sibling.  A directory-creation failure instead panics that single
task: sibling tasks and the process survive, but that image is not logged
through the error path and no completion event is sent. -/
theorem c4_error_isolation (j : JobEnv) (hmk : j.mkdir_ok = true)
    (hgeom : ∀ w h, j.decoded = some (w, h) →
      (add_border_geometry w h j.p j.symmetrical).isSome) :
    (add_border_run j ≠ BorderOutcome.panicked ∧
     (process_one j).completion_sent = true ∧
     ((process_one j).logged = true ↔ add_border_run j = BorderOutcome.errorResult)) ∧
    (∀ pre post : List JobEnv,
      process_batch (pre ++ j :: post)
        = process_batch pre ++ process_one j :: process_batch post) := by
  have hrun : add_border_run j ≠ BorderOutcome.panicked := by
    unfold add_border_run
    split
    · simp
    · rename_i w h heq
      split
      · rename_i hgnone
        have hs := hgeom w h heq
        rw [hgnone] at hs
        simp at hs
      · rw [hmk]
        split_ifs <;> first | contradiction | simp
  refine ⟨⟨hrun, ?_, ?_⟩, ?_⟩
  · unfold process_one
    cases hr : add_border_run j with
    | ok => rfl
    | errorResult => rfl
    | panicked => exact absurd hr hrun
  · unfold process_one
    cases hr : add_border_run j with
    | ok => simp
    | errorResult => simp
    | panicked => exact absurd hr hrun
  · intro pre post
    unfold process_batch
    simp [List.map_append]

/-- C4 amended witness: a job whose output file cannot be created is logged
and still sends its completion event. -/
theorem c4_error_isolation_witness :
    ((⟨some (3, 2), 0, true, true, false, true⟩ : JobEnv).mkdir_ok = true ∧
     (∀ w h, (⟨some (3, 2), 0, true, true, false, true⟩ : JobEnv).decoded = some (w, h) →
       (add_border_geometry w h (⟨some (3, 2), 0, true, true, false, true⟩ : JobEnv).p
         (⟨some (3, 2), 0, true, true, false, true⟩ : JobEnv).symmetrical).isSome)) ∧
    ((add_border_run ⟨some (3, 2), 0, true, true, false, true⟩ ≠ BorderOutcome.panicked ∧
      (process_one ⟨some (3, 2), 0, true, true, false, true⟩).completion_sent = true ∧
      ((process_one ⟨some (3, 2), 0, true, true, false, true⟩).logged = true ↔
        add_border_run ⟨some (3, 2), 0, true, true, false, true⟩
          = BorderOutcome.errorResult)) ∧
     (∀ pre post : List JobEnv,
       process_batch (pre ++ (⟨some (3, 2), 0, true, true, false, true⟩ : JobEnv) :: post)
         = process_batch pre
           ++ process_one ⟨some (3, 2), 0, true, true, false, true⟩ :: process_batch post)) := by
  have hg : ∀ w h, (⟨some (3, 2), 0, true, true, false, true⟩ : JobEnv).decoded = some (w, h) →
      (add_border_geometry w h (⟨some (3, 2), 0, true, true, false, true⟩ : JobEnv).p
        (⟨some (3, 2), 0, true, true, false, true⟩ : JobEnv).symmetrical).isSome := by
    intro w h hd
    simp only [Option.some.injEq, Prod.mk.injEq] at hd
    obtain ⟨hw, hh⟩ := hd
    subst hw
    subst hh
    rw [show (⟨some (3, 2), 0, true, true, false, true⟩ : JobEnv).p = 0 from rfl]
    rw [show (⟨some (3, 2), 0, true, true, false, true⟩ : JobEnv).symmetrical = true from rfl]
    rw [geom_3_2_sym]
    rfl
  exact ⟨⟨rfl, hg⟩, c4_error_isolation ⟨some (3, 2), 0, true, true, false, true⟩ rfl hg⟩

/-- C8: evaluation of the progress handling on a second batch.  The first
batch of one image completes; a second batch of two images starts; after only
one of its two completion events `processing` is already `false` and the
counter reads `2`, because `completed_images` is never reset between batches.
The claim's per-batch completion condition fails on the code. -/
theorem c8_second_batch_flips_early :
    (run_completions (start_processing init_app 1) 1).processing = false ∧
    ((on_image_complete (start_processing
        (run_completions (start_processing init_app 1) 1) 2)).processing = false ∧
     (on_image_complete (start_processing
        (run_completions (start_processing init_app 1) 1) 2)).completed = 2 ∧
     (on_image_complete (start_processing
        (run_completions (start_processing init_app 1) 1) 2)).max_images = 2) := by
  decide

/-- C9: evaluation of the preview lifecycle on the stale-result interleaving:
after a slider change to `1` whose task has already begun polling, a second
change to `2`, and the slower first task delivering last, the drained queue
leaves the displayed preview at the first request's parameters even though the
request history ends with the second request. -/
theorem c9_stale_preview_displayed :
    (run_prev stale_preview_trace).map (fun s => (s.displayed, s.requests))
      = some (some 1, [1, 2]) ∧ (1 : ℕ) ≠ 2 := by
  decide

theorem f32v_two : f32v 2 = 2 := by
  have h := f32v_nat_fix (n := 2) (by norm_num) (by norm_num)
  simpa using h

theorem f32v_three : f32v 3 = 3 := by
  have h := f32v_nat_fix (n := 3) (by norm_num) (by norm_num)
  simpa using h

theorem f32v_ten : f32v 10 = 10 := by
  have h := f32v_nat_fix (n := 10) (by norm_num) (by norm_num)
  simpa using h

theorem f64v_two : f64v 2 = 2 := by
  have h := f64v_nat_fix (n := 2) (by norm_num) (by norm_num)
  simpa using h

theorem f64v_three : f64v 3 = 3 := by
  have h := f64v_nat_fix (n := 3) (by norm_num) (by norm_num)
  simpa using h

theorem f64v_six : f64v 6 = 6 := by
  have h := f64v_nat_fix (n := 6) (by norm_num) (by norm_num)
  simpa using h

theorem f64v_nine : f64v 9 = 9 := by
  have h := f64v_nat_fix (n := 9) (by norm_num) (by norm_num)
  simpa using h

theorem f64v_ten : f64v 10 = 10 := by
  have h := f64v_nat_fix (n := 10) (by norm_num) (by norm_num)
  simpa using h

theorem rha_six : rha 6 = 6 := by
  have h := rha_intCast 6 (by norm_num)
  simpa using h

theorem rha_nine : rha 9 = 9 := by
  have h := rha_intCast 9 (by norm_num)
  simpa using h

theorem f32v_two_thirds : f32v (2 / 3) = 11184811 * 2 ^ (-24 : ℤ) := by
  have h1 : (2 : ℚ) ^ (-1 : ℤ) ≤ 2 / 3 := by norm_num
  have h2 : (2 : ℚ) / 3 < 2 ^ ((-1 : ℤ) + 1) := by norm_num
  rw [f32v_eval (by norm_num) h1 h2]
  rw [show max ((-1 : ℤ) - 23) (-149) = -24 by norm_num]
  have hr : rne ((2 / 3 : ℚ) / 2 ^ (-24 : ℤ)) = 11184811 := by
    apply rne_eq_high (n := 11184810)
    · norm_num
    · norm_num
  rw [hr]
  norm_num

theorem f32v_prod_10_ratio :
    f32v (10 * (11184811 * 2 ^ (-24 : ℤ))) = 13981014 * 2 ^ (-21 : ℤ) := by
  have hq : (0 : ℚ) < 10 * (11184811 * 2 ^ (-24 : ℤ)) := by positivity
  have h1 : (2 : ℚ) ^ (2 : ℤ) ≤ 10 * (11184811 * 2 ^ (-24 : ℤ)) := by
    rw [zpow_neg]
    norm_num
  have h2 : (10 : ℚ) * (11184811 * 2 ^ (-24 : ℤ)) < 2 ^ ((2 : ℤ) + 1) := by
    rw [zpow_neg]
    norm_num
  rw [f32v_eval hq h1 h2]
  rw [show max ((2 : ℤ) - 23) (-149) = -21 by norm_num]
  have hr : rne ((10 * (11184811 * 2 ^ (-24 : ℤ)) : ℚ) / 2 ^ (-21 : ℤ)) = 13981014 := by
    apply rne_eq_high (n := 13981013)
    · norm_num
    · norm_num
  rw [hr]
  norm_num

theorem u32cast_box_value : u32cast (13981014 * 2 ^ (-21 : ℤ)) = 6 := by
  unfold u32cast
  have hfl : ⌊(13981014 * 2 ^ (-21 : ℤ) : ℚ)⌋ = 6 := by
    rw [Int.floor_eq_iff]
    constructor
    · rw [zpow_neg]
      norm_num
    · rw [zpow_neg]
      norm_num
  rw [hfl]
  decide

theorem resize_box_2_3_10 : resize_box 2 3 10 = (6, 10) := by
  simp only [resize_box]
  rw [if_neg (by norm_num)]
  rw [show ((2 : ℕ) : ℚ) = 2 by norm_num, show ((3 : ℕ) : ℚ) = 3 by norm_num,
      show ((10 : ℕ) : ℚ) = 10 by norm_num]
  rw [f32v_two, f32v_three, f32v_ten, f32v_two_thirds, f32v_prod_10_ratio,
      u32cast_box_value]

theorem resize_dimensions_2_3_6_10 : resize_dimensions 2 3 6 10 = (6, 9) := by
  simp only [resize_dimensions]
  rw [show ((2 : ℕ) : ℚ) = 2 by norm_num, show ((3 : ℕ) : ℚ) = 3 by norm_num,
      show ((6 : ℕ) : ℚ) = 6 by norm_num, show ((10 : ℕ) : ℚ) = 10 by norm_num]
  rw [f64v_two, f64v_three, f64v_six, f64v_ten]
  rw [show (6 : ℚ) / 2 = 3 by norm_num, f64v_three]
  have hhq : (3 : ℚ) ≤ f64v (10 / 3) := by
    calc (3 : ℚ) = f64v 3 := f64v_three.symm
      _ ≤ f64v (10 / 3) := f64v_mono (by norm_num) (by norm_num)
  rw [min_eq_left hhq]
  rw [show (2 : ℚ) * 3 = 6 by norm_num, f64v_six, rha_six]
  rw [show (3 : ℚ) * 3 = 9 by norm_num, f64v_nine, rha_nine]
  norm_num [u32max]
  decide

theorem resized_dims_2_3_10 : resized_dims 2 3 10 = (6, 9) := by
  simp only [resized_dims]
  rw [resize_box_2_3_10]
  exact resize_dimensions_2_3_6_10

theorem resize_other_le {s l t : ℕ} (hs : 0 < s) (hsl : s ≤ l) (ht : 0 < t)
    (ht24 : t ≤ 2 ^ 24) :
    u32cast (f32v (f32v (t : ℚ) * f32v (f32v (s : ℚ) / f32v (l : ℚ)))) ≤ t := by
  have hl0 : 0 < l := lt_of_lt_of_le hs hsl
  have hfs0 : 0 ≤ f32v (s : ℚ) := f32v_nonneg (by positivity)
  have hfl1 : (1 : ℚ) ≤ f32v (l : ℚ) := by
    calc (1 : ℚ) = f32v 1 := f32v_one.symm
      _ ≤ f32v (l : ℚ) := f32v_mono (by norm_num) (by exact_mod_cast hl0)
  have hmono : f32v (s : ℚ) ≤ f32v (l : ℚ) := f32v_mono (by positivity) (by exact_mod_cast hsl)
  have hdiv1 : f32v (s : ℚ) / f32v (l : ℚ) ≤ 1 := by
    rw [div_le_one (by linarith)]
    linarith
  have hdiv0 : 0 ≤ f32v (s : ℚ) / f32v (l : ℚ) := by positivity
  have hr1 : f32v (f32v (s : ℚ) / f32v (l : ℚ)) ≤ 1 := by
    calc f32v (f32v (s : ℚ) / f32v (l : ℚ)) ≤ f32v 1 := f32v_mono hdiv0 hdiv1
      _ = 1 := f32v_one
  have hr0 : 0 ≤ f32v (f32v (s : ℚ) / f32v (l : ℚ)) := f32v_nonneg hdiv0
  have hft : f32v (t : ℚ) = t := f32v_nat_fix ht ht24
  have hprodle : f32v (t : ℚ) * f32v (f32v (s : ℚ) / f32v (l : ℚ)) ≤ (t : ℚ) := by
    rw [hft]
    calc (t : ℚ) * f32v (f32v (s : ℚ) / f32v (l : ℚ)) ≤ (t : ℚ) * 1 :=
          mul_le_mul_of_nonneg_left hr1 (by positivity)
      _ = t := by ring
  have hprod0 : 0 ≤ f32v (t : ℚ) * f32v (f32v (s : ℚ) / f32v (l : ℚ)) := by
    rw [hft]
    positivity
  have houter : f32v (f32v (t : ℚ) * f32v (f32v (s : ℚ) / f32v (l : ℚ))) ≤ (t : ℚ) := by
    calc f32v (f32v (t : ℚ) * f32v (f32v (s : ℚ) / f32v (l : ℚ)))
        ≤ f32v ((t : ℚ)) := f32v_mono hprod0 hprodle
      _ = t := hft
  exact u32cast_le houter

/-- C6 counterexample: for the composited canvas `2 × 3` and
`resize_longest_dimension = 10`, the raster handed to the encoder has
dimensions `6 × 9`: its longest side is `9`, not `10`.  The `f32` ratio
rounds `10 * (2/3)` up to `6.6666684`, the truncation makes the requested box
`6 × 10`, and the library's aspect-preserving fit of `2 × 3` into that box
yields `6 × 9`. -/
theorem c6_resize_counterexample :
    (0 < 2 ∧ 0 < 3 ∧ 0 < 10) ∧
    resized_dims 2 3 10 = (6, 9) ∧
    max (resized_dims 2 3 10).1 (resized_dims 2 3 10).2 ≠ 10 := by
  refine ⟨⟨by norm_num, by norm_num, by norm_num⟩, resized_dims_2_3_10, ?_⟩
  rw [resized_dims_2_3_10]
  norm_num

/-- C6 amended: when resizing is enabled, the code first computes a target box
whose side along the canvas's longer dimension equals `resize_longest_dimension`
exactly (for targets within the `f32` exact-integer range) and whose other
side, `trunc_u32(f32(t * f32(shorter / longer)))`, never exceeds the target;
the raster handed to the encoder is then the library's largest
aspect-ratio-preserving fit of the canvas inside that box, whose longest side
can fall a few pixels short of the target. -/
theorem c6_resize_box_amended (w h t : ℕ) (hw : 0 < w) (hh : 0 < h) (ht : 0 < t)
    (ht24 : t ≤ 2 ^ 24) :
    (h < w → (resize_box w h t).1 = t ∧ (resize_box w h t).2 ≤ t) ∧
    (¬ h < w → (resize_box w h t).2 = t ∧ (resize_box w h t).1 ≤ t) ∧
    resized_dims w h t = resize_dimensions w h (resize_box w h t).1 (resize_box w h t).2 := by
  refine ⟨fun hlt => ?_, fun hge => ?_, rfl⟩
  · unfold resize_box
    rw [if_pos hlt]
    exact ⟨rfl, resize_other_le hh (le_of_lt hlt) ht ht24⟩
  · unfold resize_box
    rw [if_neg hge]
    exact ⟨rfl, resize_other_le hw (by omega) ht ht24⟩

/-- C6 amended witness: the 2-by-3 canvas with target 10; the requested box is
6-by-10 and the dispatched raster is the library fit of the canvas in it. -/
theorem c6_resize_box_amended_witness :
    (0 < 2 ∧ 0 < 3 ∧ 0 < 10 ∧ 10 ≤ 2 ^ 24) ∧
    ((3 < 2 → (resize_box 2 3 10).1 = 10 ∧ (resize_box 2 3 10).2 ≤ 10) ∧
     (¬ 3 < 2 → (resize_box 2 3 10).2 = 10 ∧ (resize_box 2 3 10).1 ≤ 10) ∧
     resized_dims 2 3 10 = resize_dimensions 2 3 (resize_box 2 3 10).1 (resize_box 2 3 10).2) :=
  ⟨⟨by norm_num, by norm_num, by norm_num, by norm_num⟩,
   c6_resize_box_amended 2 3 10 (by norm_num) (by norm_num) (by norm_num) (by norm_num)⟩
